import Mathlib

/-!
Shallow embedding of the text-chunking engine of
`chatbot/document_loader/text_splitter.py`.

Strings are modelled as `List Char`.  The configuration fixes
`length_function = len` (character count, the default used throughout the
repository) and `is_separator_regex = False` (the default; every separator
pattern is passed through `re.escape`, hence treated literally).  Python
integers are modelled by `Int`; exceptions are modelled by `Option`
(`none` = the call raises).
-/

namespace Chunker

/-- Character count, as an integer, modelling Python's `len` used as the
default `length_function`. -/
def lenI (s : List Char) : Int := (s.length : Int)

/-- The ASCII whitespace characters stripped by Python's `str.strip()`
(the texts handled here are ASCII; the exotic Unicode space code points
also stripped by Python never occur in the separator profiles). -/
def isPySpace (c : Char) : Bool :=
  c = ' ' || c = '\t' || c = '\n' || c = '\r' || c = Char.ofNat 11 || c = Char.ofNat 12

/-- Python `str.strip()`: drop leading and trailing whitespace. -/
def pyStrip (s : List Char) : List Char :=
  ((s.dropWhile isPySpace).reverse.dropWhile isPySpace).reverse

/-- Leftmost, non-overlapping split of `text` on the literal separator
`sep`, with an explicit fuel so the recursion is structural.  With
`fuel ≥ text.length` this is Python's `re.split(re.escape(sep), text)`
(no capture group), which always returns at least one piece. -/
def splitOnFuel (sep : List Char) : Nat → List Char → List (List Char)
  | _, [] => [[]]
  | 0, text => [text]
  | fuel + 1, c :: rest =>
    if sep ≠ [] ∧ sep.isPrefixOf (c :: rest) then
      [] :: splitOnFuel sep fuel ((c :: rest).drop sep.length)
    else
      match splitOnFuel sep fuel rest with
      | [] => [[c]]
      | p :: ps => (c :: p) :: ps

/-- Python `re.split(re.escape(sep), text)` for a non-empty literal `sep`. -/
def splitOnL (sep text : List Char) : List (List Char) :=
  splitOnFuel sep text.length text

/-- Python `re.search(re.escape(sep), text)` for a literal pattern:
does `sep` occur in `text` as a contiguous substring? -/
def hasMatch (sep : List Char) : List Char → Bool
  | [] => sep.isPrefixOf ([] : List Char)
  | c :: rest => sep.isPrefixOf (c :: rest) || hasMatch sep rest

/-- The list comprehension `[_splits[i] + _splits[i + 1] for i in
range(1, len(_splits), 2)]` of `_split_text_with_regex`, applied to the
tail `_splits[1:]`: consecutive pairs are concatenated. -/
def pairUp : List (List Char) → List (List Char)
  | a :: b :: rest => (a ++ b) :: pairUp rest
  | _ => []

/-- `RecursiveCharacterTextSplitter._split_text_with_regex`.  For a
non-empty separator, `re.split` with the pattern wrapped in one capture
group returns the fragments interleaved with the matched separator
instances, i.e. `List.intersperse sep (splitOnL sep text)` (the pattern is
a literal, so every captured instance equals `sep`).  The Python indexings
`_splits[0]` and `_splits[-1:]` are rendered with `take`/`drop`; `re.split`
always returns a non-empty list, on which the two renderings agree. -/
def splitTextWithRegex (text separator : List Char) (keepSep : Bool) :
    List (List Char) :=
  let splits :=
    if separator ≠ [] then
      if keepSep then
        let iSplits := List.intersperse separator (splitOnL separator text)
        let pairs := pairUp (iSplits.drop 1)
        let pairs2 :=
          if iSplits.length % 2 == 0 then
            pairs ++ iSplits.drop (iSplits.length - 1)
          else pairs
        iSplits.take 1 ++ pairs2
      else splitOnL separator text
    else text.map (fun c => [c])
  splits.filter (fun s => s ≠ [])

/-- The separator-selection loop of `_split_text`: return the first
separator that is empty (new separators stay `[]`) or that occurs in
`text` (new separators are the remaining suffix); `none` when the loop
finishes without a break. -/
def chooseSepLoop (text : List Char) : List (List Char) →
    Option (List Char × List (List Char))
  | [] => none
  | s :: rest =>
    if s = [] then some ([], [])
    else if hasMatch s text then some (s, rest)
    else chooseSepLoop text rest

/-- Separator selection of `_split_text`: `separator` is initialised to
`separators[-1]` (an `IndexError`, i.e. `none`, on an empty list) and the
loop may override it. -/
def chooseSep (text : List Char) (seps : List (List Char)) :
    Option (List Char × List (List Char)) :=
  match seps with
  | [] => none
  | _ :: _ => some ((chooseSepLoop text seps).getD (seps.getLastD [], []))

/-- Python `separator.join(docs)`. -/
def joinSep (sep : List Char) (docs : List (List Char)) : List Char :=
  (List.intersperse sep docs).flatten

/-- `TextSplitter._join_docs`: join, optionally strip, and return `none`
for an empty result. -/
def joinDocs (stripWs : Bool) (docs : List (List Char)) (sep : List Char) :
    Option (List Char) :=
  let text := joinSep sep docs
  let text := if stripWs then pyStrip text else text
  if text = [] then none else some text

/-- The running total kept by `_merge_splits`: fragment lengths plus one
separator length per gap. -/
def totalLen (sepLen : Int) : List (List Char) → Int
  | [] => 0
  | [x] => lenI x
  | x :: y :: rest => lenI x + sepLen + totalLen sepLen (y :: rest)

/-- The eviction `while` loop of `_merge_splits`: keep popping the front
of `current_doc` while the running total exceeds `chunk_overlap`, or while
appending the incoming fragment (length `dLen`) would still overflow
`chunk_size` and the total is positive.  `current_doc[0]` on an empty
buffer raises `IndexError`, modelled by `none`. -/
def evict (chunkSize chunkOverlap sepLen dLen : Int) :
    List (List Char) → Int → Option (List (List Char) × Int)
  | [], total =>
    if total > chunkOverlap ∨ (total + dLen > chunkSize ∧ total > 0) then none
    else some ([], total)
  | x :: rest, total =>
    if total > chunkOverlap ∨
        (total + dLen + sepLen > chunkSize ∧ total > 0) then
      evict chunkSize chunkOverlap sepLen dLen rest
        (total - (lenI x + if rest.length > 0 then sepLen else 0))
    else some (x :: rest, total)

/-- The main loop of `TextSplitter._merge_splits` over the incoming
fragments, carrying the buffer, its running total and the emitted chunks.
The oversized-chunk warning is a pure diagnostic and has no effect on the
state, so it is not modelled. -/
def mergeLoop (chunkSize chunkOverlap : Int) (stripWs : Bool)
    (sep : List Char) :
    List (List Char) → List (List Char) → Int → List (List Char) →
    Option (List (List Char))
  | [], curDoc, _, docs =>
    some (docs ++ (joinDocs stripWs curDoc sep).toList)
  | d :: rest, curDoc, total, docs =>
    if total + lenI d + (if curDoc.length > 0 then lenI sep else 0) >
        chunkSize then
      if curDoc.length > 0 then
        match evict chunkSize chunkOverlap (lenI sep) (lenI d) curDoc total with
        | none => none
        | some (cur2, total2) =>
          mergeLoop chunkSize chunkOverlap stripWs sep rest (cur2 ++ [d])
            (total2 + lenI d + (if (cur2 ++ [d]).length > 1 then lenI sep else 0))
            (docs ++ (joinDocs stripWs curDoc sep).toList)
      else
        mergeLoop chunkSize chunkOverlap stripWs sep rest (curDoc ++ [d])
          (total + lenI d + (if (curDoc ++ [d]).length > 1 then lenI sep else 0))
          docs
    else
      mergeLoop chunkSize chunkOverlap stripWs sep rest (curDoc ++ [d])
        (total + lenI d + (if (curDoc ++ [d]).length > 1 then lenI sep else 0))
        docs

/-- `TextSplitter._merge_splits`. -/
def mergeSplits (chunkSize chunkOverlap : Int) (stripWs : Bool)
    (splits : List (List Char)) (sep : List Char) :
    Option (List (List Char)) :=
  mergeLoop chunkSize chunkOverlap stripWs sep splits [] 0 []

/-- The splitter configuration held by `TextSplitter.__init__`
(`length_function` fixed to character count, `is_separator_regex` fixed
to `False`). -/
structure SplitterConfig where
  chunkSize : Int
  chunkOverlap : Int
  keepSeparator : Bool
  addStartIndex : Bool
  stripWhitespace : Bool
deriving Repr, DecidableEq

/-- `TextSplitter.__init__`: raises `ValueError` (modelled as `none`)
when `chunk_overlap > chunk_size`, otherwise stores the fields. -/
def mkTextSplitter (chunkSize chunkOverlap : Int)
    (keepSeparator addStartIndex stripWhitespace : Bool) :
    Option SplitterConfig :=
  if chunkOverlap > chunkSize then none
  else some ⟨chunkSize, chunkOverlap, keepSeparator, addStartIndex,
    stripWhitespace⟩

/-- The fragment loop of `RecursiveCharacterTextSplitter._split_text`:
accumulate fragments shorter than `chunk_size` into `good`; on an
oversized fragment, flush `good` through the merger, then either emit the
fragment as is (no separators left) or recurse on it through `recur`;
`acc` collects `final_chunks`. -/
def goSplits (cfg : SplitterConfig) (mSep : List Char)
    (newSeps : List (List Char))
    (recur : List Char → Option (List (List Char))) :
    List (List Char) → List (List Char) → List (List Char) →
    Option (List (List Char))
  | [], good, acc =>
    if good ≠ [] then
      match mergeSplits cfg.chunkSize cfg.chunkOverlap cfg.stripWhitespace
          good mSep with
      | none => none
      | some merged => some (acc ++ merged)
    else some acc
  | s :: rest, good, acc =>
    if lenI s < cfg.chunkSize then
      goSplits cfg mSep newSeps recur rest (good ++ [s]) acc
    else
      match
        (if good ≠ [] then
          mergeSplits cfg.chunkSize cfg.chunkOverlap cfg.stripWhitespace
            good mSep
        else some []) with
      | none => none
      | some merged =>
        match (if newSeps = [] then some [s] else recur s) with
        | none => none
        | some handled =>
          goSplits cfg mSep newSeps recur rest [] (acc ++ merged ++ handled)

/-- `RecursiveCharacterTextSplitter._split_text` with an explicit fuel
bounding the recursion depth; every recursive call uses the strict suffix
of the separator list that follows the selected pattern. -/
def splitTextFuel (cfg : SplitterConfig) :
    Nat → List Char → List (List Char) → Option (List (List Char))
  | 0, _, _ => none
  | fuel + 1, text, seps =>
    match chooseSep text seps with
    | none => none
    | some (sep, newSeps) =>
      goSplits cfg (if cfg.keepSeparator then [] else sep) newSeps
        (fun s => splitTextFuel cfg fuel s newSeps)
        (splitTextWithRegex text sep cfg.keepSeparator) [] []

/-- `RecursiveCharacterTextSplitter.split_text`: the fuel
`seps.length + 1` dominates the recursion depth (proved below). -/
def splitText (cfg : SplitterConfig) (seps : List (List Char))
    (text : List Char) : Option (List (List Char)) :=
  splitTextFuel cfg (seps.length + 1) text seps

/-- A produced `Document`.  The metadata mapping is modelled by its only
content-bearing entry, the optional `start_index`; the deep-copied base
metadata carries no information relevant to the claims. -/
structure Document where
  page_content : List Char
  start_index : Option Int
deriving Repr, DecidableEq

/-- Python `text.find(sub, i)` scanning from position `i`: the auxiliary
walk over `text.drop i`. -/
def pyFindCore (sub : List Char) : List Char → Nat → Int
  | [], i => if sub.isPrefixOf ([] : List Char) then (i : Int) else -1
  | c :: rest, i =>
    if sub.isPrefixOf (c :: rest) then (i : Int)
    else pyFindCore sub rest (i + 1)

/-- Python `text.find(sub, start)`: smallest index `≥ start` where `sub`
occurs, `-1` when there is none. -/
def pyFind (text sub : List Char) (start : Nat) : Int :=
  if start > text.length then -1 else pyFindCore sub (text.drop start) start

/-- The chunk loop of `TextSplitter.create_documents` for one source
text: `index` starts at `-1` and each search starts one past the
previously found index. -/
def createDocsLoop (addStart : Bool) (text : List Char) :
    List (List Char) → Int → List Document
  | [], _ => []
  | chunk :: rest, index =>
    if addStart then
      let idx := pyFind text chunk (index + 1).toNat
      { page_content := chunk, start_index := some idx } ::
        createDocsLoop addStart text rest idx
    else
      { page_content := chunk, start_index := none } ::
        createDocsLoop addStart text rest index

/-- `TextSplitter.create_documents` (metadata payloads elided, see
`Document`): split every text and emit one `Document` per chunk, in
order. -/
def createDocuments (cfg : SplitterConfig) (seps : List (List Char)) :
    List (List Char) → Option (List Document)
  | [] => some []
  | t :: rest =>
    match splitText cfg seps t with
    | none => none
    | some chunks =>
      match createDocuments cfg seps rest with
      | none => none
      | some docs =>
        some (createDocsLoop cfg.addStartIndex t chunks (-1) ++ docs)

/-- The `start_index` values stored in a document sequence, in order. -/
def startIndexes (docs : List Document) : List Int :=
  docs.filterMap (·.start_index)

/-- The markdown separator profile of `__get_separators`. -/
def markdownSeparators : List (List Char) :=
  ["\n#\x7b1,6\x7d ".toList, "```\n".toList, "\n\\*\\*\\*+\n".toList,
   "\n---+\n".toList, "\n___+\n".toList, "\n\n".toList, "\n".toList,
   " ".toList, "".toList]

/-- The HTML separator profile of `__get_separators`. -/
def htmlSeparators : List (List Char) :=
  ["<body".toList, "<div".toList, "<p".toList, "<br".toList, "<li".toList,
   "<h1".toList, "<h2".toList, "<h3".toList, "<h4".toList, "<h5".toList,
   "<h6".toList, "<span".toList, "<table".toList, "<tr".toList,
   "<td".toList, "<th".toList, "<ul".toList, "<ol".toList,
   "<header".toList, "<footer".toList, "<nav".toList, "<head".toList,
   "<style".toList, "<script".toList, "<meta".toList, "<title".toList,
   "".toList]

/-- `__get_separators`: the `Format` argument is a `str`-valued enum, so
the dispatch compares the tag's string value; any other tag raises
`ValueError` (the spec's unsupported-format error), modelled as `none`. -/
def getSeparators (format : List Char) : Option (List (List Char)) :=
  if format = "markdown".toList then some markdownSeparators
  else if format = "html".toList then some htmlSeparators
  else none

/-- Success predicate for one run of the eviction loop: the loop did not
fault, the returned running total is the measured total of the returned
buffer, it is at most `chunk_overlap`, and the retained buffer is a
suffix of the original one. -/
def evictOk (chunkOverlap sepLen : Int) (curDoc : List (List Char)) :
    Option (List (List Char) × Int) → Prop
  | none => False
  | some (cur2, total2) =>
    total2 = totalLen sepLen cur2 ∧ total2 ≤ chunkOverlap ∧ cur2 <:+ curDoc

/-! Basic facts about the regex-free literal split. -/

theorem splitOnFuel_ne_nil (sep : List Char) (fuel : Nat) (text : List Char) :
    splitOnFuel sep fuel text ≠ [] := by
  match fuel, text with
  | _, [] => simp [splitOnFuel]
  | 0, c :: rest => simp [splitOnFuel]
  | fuel + 1, c :: rest =>
    rw [splitOnFuel]
    split
    · simp
    · split <;> simp

theorem prefix_append_drop {sep l : List Char} (h : sep.isPrefixOf l) :
    sep ++ l.drop sep.length = l := by
  have h' : sep <+: l := List.isPrefixOf_iff_prefix.mp h
  obtain ⟨t, rfl⟩ := h'
  rw [List.drop_left]

theorem joinSep_single (sep x : List Char) : joinSep sep [x] = x := by
  simp [joinSep]

theorem joinSep_cons2 (sep x y : List Char) (rest : List (List Char)) :
    joinSep sep (x :: y :: rest) = x ++ sep ++ joinSep sep (y :: rest) := by
  simp [joinSep, List.intersperse_cons_cons, List.append_assoc]

theorem joinSep_cons_head (sep p : List Char) (c : Char)
    (ps : List (List Char)) :
    joinSep sep ((c :: p) :: ps) = c :: joinSep sep (p :: ps) := by
  cases ps with
  | nil => simp [joinSep_single]
  | cons q qs => rw [joinSep_cons2, joinSep_cons2]; simp

theorem splitOnFuel_join (sep : List Char) :
    ∀ (fuel : Nat) (text : List Char), text.length ≤ fuel →
      joinSep sep (splitOnFuel sep fuel text) = text := by
  intro fuel
  induction fuel with
  | zero =>
    intro text h
    have ht : text = [] := List.eq_nil_of_length_eq_zero (Nat.le_zero.mp h)
    subst ht
    simp [splitOnFuel, joinSep]
  | succ fuel ih =>
    intro text h
    match text with
    | [] => simp [splitOnFuel, joinSep]
    | c :: rest =>
      rw [splitOnFuel]
      by_cases hp : sep ≠ [] ∧ sep.isPrefixOf (c :: rest)
      · rw [if_pos hp]
        have hsl : 1 ≤ sep.length := by
          cases sep with
          | nil => exact absurd rfl hp.1
          | cons a s => simp
        have hlen : ((c :: rest).drop sep.length).length ≤ fuel := by
          rw [List.length_drop]
          simp only [List.length_cons] at h ⊢
          omega
        have hj := ih _ hlen
        have hne := splitOnFuel_ne_nil sep fuel ((c :: rest).drop sep.length)
        match hsp : splitOnFuel sep fuel ((c :: rest).drop sep.length) with
        | [] => exact absurd hsp hne
        | p :: ps =>
          rw [hsp] at hj
          rw [joinSep_cons2, hj]
          simpa using prefix_append_drop hp.2
      · rw [if_neg hp]
        have hlen : rest.length ≤ fuel := by
          simp only [List.length_cons] at h
          omega
        have hj := ih rest hlen
        have hne := splitOnFuel_ne_nil sep fuel rest
        match hsp : splitOnFuel sep fuel rest with
        | [] => exact absurd hsp hne
        | p :: ps =>
          rw [hsp] at hj
          rw [joinSep_cons_head, hj]

theorem splitOnL_ne_nil (sep text : List Char) : splitOnL sep text ≠ [] :=
  splitOnFuel_ne_nil sep text.length text

theorem splitOnL_join (sep text : List Char) :
    joinSep sep (splitOnL sep text) = text :=
  splitOnFuel_join sep text.length text le_rfl

/-! Structure of the keep-separator recombination. -/

theorem pairUp_sep_cons (sep : List Char) :
    ∀ (gs : List (List Char)) (g : List Char),
      pairUp (sep :: List.intersperse sep (g :: gs)) =
        (g :: gs).map (fun x => sep ++ x) := by
  intro gs
  induction gs with
  | nil => intro g; simp [List.intersperse, pairUp]
  | cons h hs ih =>
    intro g
    rw [List.intersperse_cons_cons]
    show (sep ++ g) :: pairUp (sep :: List.intersperse sep (h :: hs)) = _
    rw [ih h]
    simp

theorem intersperse_length_cons2 (sep g : List Char) (gs : List (List Char)) :
    ∀ (f : List Char),
      (List.intersperse sep (f :: g :: gs)).length % 2 = 1 := by
  induction gs generalizing g with
  | nil => intro f; simp [List.intersperse_cons_cons, List.intersperse]
  | cons h hs ih =>
    intro f
    rw [List.intersperse_cons_cons]
    have := ih h g
    simp only [List.length_cons]
    omega

theorem keepSep_structure (text sep : List Char) (hs : sep ≠ [])
    (f : List Char) (fs : List (List Char))
    (hsplit : splitOnL sep text = f :: fs) :
    splitTextWithRegex text sep true =
      (f :: fs.map (fun x => sep ++ x)).filter (fun s => s ≠ []) := by
  unfold splitTextWithRegex
  rw [if_pos hs, hsplit]
  cases fs with
  | nil => simp [List.intersperse, pairUp]
  | cons g gs =>
    rw [List.intersperse_cons_cons]
    have hodd := intersperse_length_cons2 sep g gs f
    rw [List.intersperse_cons_cons] at hodd
    have hmod : ((f :: sep :: List.intersperse sep (g :: gs)).length % 2 == 0)
        = false := by
      simp only [beq_eq_false_iff_ne, ne_eq]
      omega
    simp only [hmod, if_false]
    have hpair : pairUp ((f :: sep :: List.intersperse sep (g :: gs)).drop 1)
        = (g :: gs).map (fun x => sep ++ x) := by
      simpa using pairUp_sep_cons sep gs g
    rw [hpair]
    simp

/-! Exact reconstruction of the input from the keep-separator fragments. -/

theorem flatten_filter_ne_nil (l : List (List Char)) :
    (l.filter (fun s => s ≠ [])).flatten = l.flatten := by
  induction l with
  | nil => rfl
  | cons x xs ih =>
    simp only [ne_eq, decide_not] at ih ⊢
    by_cases hx : x = [] <;> simp [List.filter_cons, hx, ih]

theorem flatten_map_singleton (l : List Char) :
    (l.map (fun c => [c])).flatten = l := by
  induction l with
  | nil => rfl
  | cons c cs ih => simp [ih]

theorem flatten_cons_map_sep (sep : List Char) :
    ∀ (fs : List (List Char)) (f : List Char),
      (f :: fs.map (fun x => sep ++ x)).flatten = joinSep sep (f :: fs) := by
  intro fs
  induction fs with
  | nil => intro f; simp [joinSep_single]
  | cons g gs ih =>
    intro f
    rw [joinSep_cons2]
    have hg := ih g
    simp only [List.map_cons, List.flatten_cons] at hg ⊢
    rw [← hg]
    simp [List.append_assoc]

theorem splitTextWithRegex_keep_flatten (text sep : List Char) :
    (splitTextWithRegex text sep true).flatten = text := by
  by_cases hs : sep = []
  · subst hs
    unfold splitTextWithRegex
    rw [if_neg (by simp)]
    rw [flatten_filter_ne_nil, flatten_map_singleton]
  · have hne := splitOnL_ne_nil sep text
    match hsp : splitOnL sep text with
    | [] => exact absurd hsp hne
    | f :: fs =>
      rw [keepSep_structure text sep hs f fs hsp]
      rw [flatten_filter_ne_nil, flatten_cons_map_sep]
      rw [← hsp, splitOnL_join]

/-! Bookkeeping of the running total maintained by the merger. -/

theorem totalLen_cons (s : Int) (x : List Char) (rest : List (List Char)) :
    totalLen s (x :: rest) =
      lenI x + (if rest = [] then 0 else s + totalLen s rest) := by
  cases rest with
  | nil => simp [totalLen]
  | cons y ys => simp [totalLen, add_assoc]

theorem totalLen_append_singleton (s : Int) :
    ∀ (l : List (List Char)) (d : List Char),
      totalLen s (l ++ [d]) =
        totalLen s l + (if l = [] then 0 else s) + lenI d := by
  intro l
  induction l with
  | nil => intro d; simp [totalLen]
  | cons x xs ih =>
    intro d
    rw [List.cons_append, totalLen_cons, totalLen_cons s x xs, ih d,
      if_neg (List.cons_ne_nil x xs)]
    by_cases hxs : xs = []
    · subst hxs; simp [totalLen]; ring
    · simp only [if_neg hxs, if_neg (show ¬(xs ++ [d]) = [] by simp)]
      ring

theorem total_update (s : Int) (cur : List (List Char)) (d : List Char) :
    totalLen s cur + lenI d + (if (cur ++ [d]).length > 1 then s else 0) =
      totalLen s (cur ++ [d]) := by
  rw [totalLen_append_singleton]
  by_cases hc : cur = []
  · subst hc; simp
  · have hl : (cur ++ [d]).length > 1 := by
      cases cur with
      | nil => exact absurd rfl hc
      | cons a as => simp
    rw [if_pos hl, if_neg hc]
    ring

/-! The eviction loop always succeeds on a consistently-measured buffer and
leaves its running total at most `chunk_overlap`. -/

theorem evict_spec (chunkSize chunkOverlap sepLen dLen : Int)
    (hov : 0 ≤ chunkOverlap) :
    ∀ (curDoc : List (List Char)),
      evictOk chunkOverlap sepLen curDoc
        (evict chunkSize chunkOverlap sepLen dLen curDoc
          (totalLen sepLen curDoc)) := by
  intro curDoc
  induction curDoc with
  | nil =>
    rw [evict, if_neg (by simp [totalLen]; omega)]
    exact ⟨rfl, by simp [totalLen]; omega, List.nil_suffix⟩
  | cons x rest ih =>
    rw [evict]
    by_cases hc : totalLen sepLen (x :: rest) > chunkOverlap ∨
        (totalLen sepLen (x :: rest) + dLen + sepLen > chunkSize ∧
          totalLen sepLen (x :: rest) > 0)
    · rw [if_pos hc]
      have harg : totalLen sepLen (x :: rest) -
          (lenI x + if rest.length > 0 then sepLen else 0) =
          totalLen sepLen rest := by
        cases rest with
        | nil => simp [totalLen]
        | cons y ys => simp [totalLen, add_assoc]
      rw [harg]
      have h := ih
      cases hev : evict chunkSize chunkOverlap sepLen dLen rest
          (totalLen sepLen rest) with
      | none => rw [hev] at h; exact h
      | some p =>
        obtain ⟨cur2, total2⟩ := p
        rw [hev] at h
        simp only [evictOk] at h ⊢
        obtain ⟨h1, h2, h3⟩ := h
        exact ⟨h1, h2, h3.trans (List.suffix_cons x rest)⟩
    · rw [if_neg hc]
      push_neg at hc
      exact ⟨rfl, hc.1, List.suffix_refl _⟩

/-! The merger never faults when `chunk_overlap` is non-negative. -/

theorem mergeLoop_total (chunkSize chunkOverlap : Int) (stripWs : Bool)
    (sep : List Char) (hov : 0 ≤ chunkOverlap) :
    ∀ (splits curDoc docs : List (List Char)),
      (mergeLoop chunkSize chunkOverlap stripWs sep splits curDoc
        (totalLen (lenI sep) curDoc) docs).isSome := by
  intro splits
  induction splits with
  | nil => intro curDoc docs; simp [mergeLoop]
  | cons d rest ih =>
    intro curDoc docs
    rw [mergeLoop]
    by_cases hc : totalLen (lenI sep) curDoc + lenI d +
        (if curDoc.length > 0 then lenI sep else 0) > chunkSize
    · rw [if_pos hc]
      by_cases hcd : curDoc.length > 0
      · rw [if_pos hcd]
        have hs := evict_spec chunkSize chunkOverlap (lenI sep) (lenI d)
          hov curDoc
        cases hev : evict chunkSize chunkOverlap (lenI sep) (lenI d) curDoc
            (totalLen (lenI sep) curDoc) with
        | none => rw [hev] at hs; exact absurd hs (by simp [evictOk])
        | some p =>
          obtain ⟨cur2, total2⟩ := p
          rw [hev] at hs
          simp only [evictOk] at hs
          obtain ⟨h1, _, _⟩ := hs
          simp only [hev]
          rw [h1, total_update]
          exact ih _ _
      · rw [if_neg hcd]
        rw [total_update]
        exact ih _ _
    · rw [if_neg hc]
      rw [total_update]
      exact ih _ _

theorem mergeSplits_total (chunkSize chunkOverlap : Int) (stripWs : Bool)
    (splits : List (List Char)) (sep : List Char) (hov : 0 ≤ chunkOverlap) :
    (mergeSplits chunkSize chunkOverlap stripWs splits sep).isSome := by
  have h := mergeLoop_total chunkSize chunkOverlap stripWs sep hov splits [] []
  simpa [mergeSplits, totalLen] using h

/-! The fragment loop never faults when the merger does not. -/

theorem goSplits_total (cfg : SplitterConfig) (mSep : List Char)
    (newSeps : List (List Char))
    (recur : List Char → Option (List (List Char)))
    (hov : 0 ≤ cfg.chunkOverlap)
    (hrec : newSeps ≠ [] → ∀ s, (recur s).isSome) :
    ∀ (splits good acc : List (List Char)),
      (goSplits cfg mSep newSeps recur splits good acc).isSome := by
  intro splits
  induction splits with
  | nil =>
    intro good acc
    rw [goSplits]
    by_cases hg : good ≠ []
    · rw [if_pos hg]
      obtain ⟨merged, hm⟩ := Option.isSome_iff_exists.mp
        (mergeSplits_total cfg.chunkSize cfg.chunkOverlap cfg.stripWhitespace
          good mSep hov)
      simp [hm]
    · rw [if_neg hg]
      simp
  | cons s rest ih =>
    intro good acc
    rw [goSplits]
    by_cases hls : lenI s < cfg.chunkSize
    · rw [if_pos hls]
      exact ih _ _
    · rw [if_neg hls]
      have hflush : (if good ≠ [] then
          mergeSplits cfg.chunkSize cfg.chunkOverlap cfg.stripWhitespace
            good mSep
        else some []).isSome := by
        by_cases hg : good ≠ []
        · simpa [hg] using mergeSplits_total cfg.chunkSize cfg.chunkOverlap
            cfg.stripWhitespace good mSep hov
        · simp [hg]
      obtain ⟨merged, hm⟩ := Option.isSome_iff_exists.mp hflush
      have hhand : (if newSeps = [] then some [s] else recur s).isSome := by
        by_cases hn : newSeps = []
        · simp [hn]
        · simpa [hn] using hrec hn s
      obtain ⟨handled, hh⟩ := Option.isSome_iff_exists.mp hhand
      simp only [hm, hh]
      exact ih _ _

/-! Separator selection returns a strictly shorter remaining list. -/

theorem chooseSepLoop_tail_lt (text : List Char) :
    ∀ (seps : List (List Char)) (p : List Char × List (List Char)),
      chooseSepLoop text seps = some p → p.2.length < seps.length := by
  intro seps
  induction seps with
  | nil => intro p h; simp [chooseSepLoop] at h
  | cons s rest ih =>
    intro p h
    rw [chooseSepLoop] at h
    by_cases hs : s = []
    · rw [if_pos hs] at h
      simp only [Option.some.injEq] at h
      subst h
      simp
    · rw [if_neg hs] at h
      by_cases hm : hasMatch s text = true
      · rw [if_pos hm] at h
        simp only [Option.some.injEq] at h
        subst h
        simp
      · rw [if_neg hm] at h
        have hlt := ih p h
        simp only [List.length_cons]
        omega

theorem chooseSep_tail_lt (text : List Char) (seps : List (List Char))
    (p : List Char × List (List Char)) (h : chooseSep text seps = some p) :
    p.2.length < seps.length := by
  match seps with
  | [] => simp [chooseSep] at h
  | s :: rest =>
    rw [chooseSep] at h
    simp only [Option.some.injEq] at h
    subst h
    cases hc : chooseSepLoop text (s :: rest) with
    | none => simp [hc]
    | some q =>
      have hlt := chooseSepLoop_tail_lt text (s :: rest) q hc
      simpa [hc] using hlt

theorem chooseSep_isSome (text : List Char) (seps : List (List Char))
    (h : seps ≠ []) : (chooseSep text seps).isSome := by
  match seps with
  | [] => exact absurd rfl h
  | s :: rest => rw [chooseSep]; rfl

/-! The fragment loop only depends on the recursion function
extensionally. -/

theorem goSplits_congr (cfg : SplitterConfig) (mSep : List Char)
    (newSeps : List (List Char))
    (recur1 recur2 : List Char → Option (List (List Char)))
    (h : ∀ s, recur1 s = recur2 s) :
    ∀ (splits good acc : List (List Char)),
      goSplits cfg mSep newSeps recur1 splits good acc =
        goSplits cfg mSep newSeps recur2 splits good acc := by
  intro splits
  induction splits with
  | nil => intro good acc; rw [goSplits, goSplits]
  | cons s rest ih =>
    intro good acc
    rw [goSplits, goSplits]
    by_cases hls : lenI s < cfg.chunkSize
    · rw [if_pos hls, if_pos hls, ih]
    · rw [if_neg hls, if_neg hls, h s]
      cases hflush : (if good ≠ [] then
          mergeSplits cfg.chunkSize cfg.chunkOverlap cfg.stripWhitespace
            good mSep
        else some []) with
      | none => simp only [hflush]
      | some merged =>
        simp only [hflush]
        cases hhand : (if newSeps = [] then some [s] else recur2 s) with
        | none => simp only [hhand]
        | some handled =>
          simp only [hhand]
          exact ih _ _

/-! Fuel stability: any fuel exceeding the separator-list length computes
the same result, i.e. the recursion depth is bounded by that length. -/

theorem splitTextFuel_stable :
    ∀ (n : Nat) (cfg : SplitterConfig) (text : List Char)
      (seps : List (List Char)) (f1 f2 : Nat),
      seps.length ≤ n → n < f1 → n < f2 →
      splitTextFuel cfg f1 text seps = splitTextFuel cfg f2 text seps := by
  intro n
  induction n with
  | zero =>
    intro cfg text seps f1 f2 hlen h1 h2
    have hseps : seps = [] :=
      List.eq_nil_of_length_eq_zero (Nat.le_zero.mp hlen)
    subst hseps
    cases f1 with
    | zero => omega
    | succ a =>
      cases f2 with
      | zero => omega
      | succ b => rw [splitTextFuel, splitTextFuel]; rfl
  | succ n ih =>
    intro cfg text seps f1 f2 hlen h1 h2
    cases f1 with
    | zero => omega
    | succ a =>
      cases f2 with
      | zero => omega
      | succ b =>
        rw [splitTextFuel, splitTextFuel]
        cases hcs : chooseSep text seps with
        | none => simp only [hcs]
        | some p =>
          obtain ⟨sep, newSeps⟩ := p
          have hlt := chooseSep_tail_lt text seps (sep, newSeps) hcs
          simp only [hcs]
          apply goSplits_congr
          intro s
          exact ih cfg s newSeps a b (by simp at hlt; omega) (by omega)
            (by omega)

/-! Totality: with a non-negative overlap and a non-empty separator list
the recursive splitter always returns a value. -/

theorem splitTextFuel_total :
    ∀ (fuel : Nat) (cfg : SplitterConfig) (text : List Char)
      (seps : List (List Char)),
      0 ≤ cfg.chunkOverlap → seps ≠ [] → seps.length < fuel →
      (splitTextFuel cfg fuel text seps).isSome := by
  intro fuel
  induction fuel with
  | zero => intro cfg text seps hov hne hlen; omega
  | succ fuel ih =>
    intro cfg text seps hov hne hlen
    rw [splitTextFuel]
    cases hcs : chooseSep text seps with
    | none =>
      have := chooseSep_isSome text seps hne
      rw [hcs] at this
      simp at this
    | some p =>
      obtain ⟨sep, newSeps⟩ := p
      have hlt := chooseSep_tail_lt text seps (sep, newSeps) hcs
      simp only [hcs]
      apply goSplits_total
      · exact hov
      · intro hn s
        apply ih cfg s newSeps hov hn
        simp only at hlt
        omega

/-! Fragments of a keep-separator split are no longer than the input. -/

theorem length_le_flatten {s : List Char} {l : List (List Char)}
    (h : s ∈ l) : s.length ≤ l.flatten.length := by
  induction l with
  | nil => simp at h
  | cons x xs ih =>
    rcases List.mem_cons.mp h with h | h
    · subst h
      simp [List.flatten_cons]
    · have := ih h
      simp only [List.flatten_cons, List.length_append]
      omega

theorem mem_splitTextWithRegex_keep_length {s text sep : List Char}
    (h : s ∈ splitTextWithRegex text sep true) : s.length ≤ text.length := by
  have hle := length_le_flatten h
  rwa [splitTextWithRegex_keep_flatten] at hle

/-! When every fragment is short, the fragment loop reduces to a single
merge of the whole run. -/

theorem goSplits_allGood (cfg : SplitterConfig) (mSep : List Char)
    (newSeps : List (List Char))
    (recur : List Char → Option (List (List Char))) :
    ∀ (splits : List (List Char)),
      (∀ s ∈ splits, lenI s < cfg.chunkSize) →
      ∀ (good acc : List (List Char)),
        goSplits cfg mSep newSeps recur splits good acc =
          (if good ++ splits = [] then some acc
           else Option.map (fun m => acc ++ m)
             (mergeSplits cfg.chunkSize cfg.chunkOverlap cfg.stripWhitespace
               (good ++ splits) mSep)) := by
  intro splits
  induction splits with
  | nil =>
    intro _ good acc
    rw [goSplits]
    simp only [List.append_nil]
    by_cases hg : good = []
    · subst hg
      simp
    · rw [if_pos (show good ≠ [] from hg), if_neg hg]
      cases hm : mergeSplits cfg.chunkSize cfg.chunkOverlap
          cfg.stripWhitespace good mSep with
      | none => simp only [hm, Option.map_none']
      | some merged => simp only [hm, Option.map_some']
  | cons s rest ih =>
    intro hall good acc
    rw [goSplits]
    have hls : lenI s < cfg.chunkSize := hall s (by simp)
    rw [if_pos hls]
    rw [ih (fun x hx => hall x (by simp [hx])) (good ++ [s]) acc]
    simp only [List.append_assoc, List.singleton_append]

/-! With the empty join separator, a run whose total content fits in
`chunk_size` is merged into a single chunk. -/

theorem totalLen_zero_flatten :
    ∀ (l : List (List Char)), totalLen 0 l = (l.flatten.length : Int) := by
  intro l
  induction l with
  | nil => simp [totalLen]
  | cons x xs ih =>
    rw [totalLen_cons, ih]
    cases xs with
    | nil => simp [lenI]
    | cons y ys =>
      simp only [List.flatten_cons, List.length_append, lenI]
      push_cast
      ring

theorem joinSep_nil_sep :
    ∀ (l : List (List Char)), joinSep [] l = l.flatten := by
  intro l
  induction l with
  | nil => rfl
  | cons x xs ih =>
    cases xs with
    | nil => simp [joinSep_single]
    | cons y ys =>
      rw [joinSep_cons2, ih]
      simp

theorem mergeLoop_fits (chunkSize chunkOverlap : Int) (stripWs : Bool) :
    ∀ (splits curDoc docs : List (List Char)),
      ((curDoc ++ splits).flatten.length : Int) ≤ chunkSize →
      mergeLoop chunkSize chunkOverlap stripWs [] splits curDoc
        (totalLen 0 curDoc) docs =
      some (docs ++ (joinDocs stripWs (curDoc ++ splits) ([] : List Char)).toList) := by
  intro splits
  induction splits with
  | nil =>
    intro curDoc docs _
    rw [mergeLoop]
    simp
  | cons d rest ih =>
    intro curDoc docs h
    rw [mergeLoop]
    have hbound : totalLen 0 curDoc + lenI d ≤ chunkSize := by
      rw [totalLen_zero_flatten]
      have hexp : ((curDoc ++ (d :: rest)).flatten.length : Int) =
          (curDoc.flatten.length : Int) + lenI d +
            (rest.flatten.length : Int) := by
        simp only [List.flatten_append, List.length_append,
          List.flatten_cons, lenI]
        push_cast
        ring
      rw [hexp] at h
      have hr : (0 : Int) ≤ (rest.flatten.length : Int) := by positivity
      simp only [lenI] at *
      omega
    have hcond : ¬(totalLen 0 curDoc + lenI d +
        (if curDoc.length > 0 then lenI ([] : List Char) else 0) >
          chunkSize) := by
      have hz : lenI ([] : List Char) = 0 := rfl
      rw [hz, ite_self]
      omega
    rw [if_neg hcond]
    have harg : totalLen 0 curDoc + lenI d +
        (if (curDoc ++ [d]).length > 1 then lenI ([] : List Char) else 0) =
        totalLen 0 (curDoc ++ [d]) := by
      have hu := total_update 0 curDoc d
      have hz : lenI ([] : List Char) = 0 := rfl
      rw [hz]
      simpa using hu
    rw [harg]
    rw [ih (curDoc ++ [d]) docs (by simpa [List.append_assoc] using h)]
    simp [List.append_assoc]

/-! A short input under `keep_separator` comes back as a single
(optionally stripped) chunk, or nothing if it strips to empty. -/

theorem splitText_short_keep (cfg : SplitterConfig)
    (seps : List (List Char)) (text : List Char)
    (hkeep : cfg.keepSeparator = true) (hne : seps ≠ [])
    (hlen : lenI text < cfg.chunkSize) :
    splitText cfg seps text =
      some (if (if cfg.stripWhitespace then pyStrip text else text) = []
        then []
        else [if cfg.stripWhitespace then pyStrip text else text]) := by
  unfold splitText
  rw [splitTextFuel]
  cases hcs : chooseSep text seps with
  | none =>
    have hcs2 := chooseSep_isSome text seps hne
    rw [hcs] at hcs2
    simp at hcs2
  | some p =>
    obtain ⟨sep, newSeps⟩ := p
    simp only [hcs, hkeep, if_true]
    have hall : ∀ s ∈ splitTextWithRegex text sep true,
        lenI s < cfg.chunkSize := by
      intro s hsmem
      have hl := mem_splitTextWithRegex_keep_length hsmem
      simp only [lenI] at *
      omega
    rw [goSplits_allGood cfg [] newSeps _ _ hall [] []]
    simp only [List.nil_append]
    by_cases hsp : splitTextWithRegex text sep true = []
    · have htext : text = [] := by
        have hfl := splitTextWithRegex_keep_flatten text sep
        rw [hsp] at hfl
        simpa using hfl.symm
      subst htext
      rw [if_pos hsp]
      simp [pyStrip]
    · rw [if_neg hsp]
      have hmerge := mergeLoop_fits cfg.chunkSize cfg.chunkOverlap
        cfg.stripWhitespace (splitTextWithRegex text sep true) [] []
        (by
          simp only [List.nil_append, splitTextWithRegex_keep_flatten]
          simp only [lenI] at hlen
          omega)
      have h0 : totalLen 0 ([] : List (List Char)) = 0 := rfl
      rw [h0] at hmerge
      unfold mergeSplits
      rw [hmerge]
      simp only [List.nil_append, Option.map_some']
      have hjd : joinDocs cfg.stripWhitespace
          (splitTextWithRegex text sep true) ([] : List Char) =
          (if (if cfg.stripWhitespace then pyStrip text else text) = []
            then none
            else some (if cfg.stripWhitespace then pyStrip text else text)) := by
        unfold joinDocs
        rw [joinSep_nil_sep, splitTextWithRegex_keep_flatten]
      rw [hjd]
      by_cases hstr : (if cfg.stripWhitespace then pyStrip text else text) = []
      · rw [if_pos hstr, if_pos hstr]
        simp
      · rw [if_neg hstr, if_neg hstr]
        simp

/-! Python `find` returns `-1` or a position at or after the start. -/

theorem pyFindCore_cases (sub : List Char) :
    ∀ (l : List Char) (i : Nat),
      pyFindCore sub l i = -1 ∨ (i : Int) ≤ pyFindCore sub l i := by
  intro l
  induction l with
  | nil =>
    intro i
    rw [pyFindCore]
    by_cases hp : sub.isPrefixOf ([] : List Char) = true
    · rw [if_pos hp]; right; exact le_refl _
    · rw [if_neg hp]; left; rfl
  | cons c rest ih =>
    intro i
    rw [pyFindCore]
    by_cases hp : sub.isPrefixOf (c :: rest) = true
    · rw [if_pos hp]; right; exact le_refl _
    · rw [if_neg hp]
      rcases ih (i + 1) with h | h
      · left; exact h
      · right
        refine le_trans ?_ h
        push_cast
        omega

theorem pyFind_cases (text sub : List Char) (start : Nat) :
    pyFind text sub start = -1 ∨ (start : Int) ≤ pyFind text sub start := by
  unfold pyFind
  by_cases h : start > text.length
  · rw [if_pos h]; left; rfl
  · rw [if_neg h]; exact pyFindCore_cases sub (text.drop start) start

/-! The assembler's search cursor makes found indexes strictly increase. -/

theorem createDocsLoop_chain (text : List Char) :
    ∀ (chunks : List (List Char)) (idx : Int), -1 ≤ idx →
      (∀ j ∈ startIndexes (createDocsLoop true text chunks idx), 0 ≤ j) →
      List.Chain (· < ·) idx
        (startIndexes (createDocsLoop true text chunks idx)) := by
  intro chunks
  induction chunks with
  | nil => intro idx _ _; simp [createDocsLoop, startIndexes]
  | cons c rest ih =>
    intro idx hidx hall
    simp only [createDocsLoop, if_true, startIndexes,
      List.filterMap_cons] at hall ⊢
    rw [List.chain_cons]
    have hmem : 0 ≤ pyFind text c (idx + 1).toNat := hall _ (by simp)
    have hgt : idx < pyFind text c (idx + 1).toNat := by
      rcases pyFind_cases text c (idx + 1).toNat with h | h
      · omega
      · have hcast : (((idx + 1).toNat : Nat) : Int) = idx + 1 :=
          Int.toNat_of_nonneg (by omega)
        rw [hcast] at h
        omega
    refine ⟨hgt, ih (pyFind text c (idx + 1).toNat) (by omega) ?_⟩
    intro j hj
    apply hall j
    simp only [startIndexes] at hj
    exact List.mem_cons_of_mem _ hj

/-! The empty input produces no fragments and no documents. -/

theorem splitTextWithRegex_empty (sep : List Char) (keep : Bool) :
    splitTextWithRegex [] sep keep = [] := by
  unfold splitTextWithRegex
  by_cases hs : sep = []
  · subst hs; simp
  · rw [if_pos hs]
    have h0 : splitOnL sep [] = [[]] := rfl
    rw [h0]
    cases keep <;> simp [List.intersperse, pairUp]

theorem splitText_empty (cfg : SplitterConfig) (seps : List (List Char))
    (hne : seps ≠ []) : splitText cfg seps [] = some [] := by
  unfold splitText
  rw [splitTextFuel]
  cases hcs : chooseSep [] seps with
  | none =>
    have hcs2 := chooseSep_isSome [] seps hne
    rw [hcs] at hcs2
    simp at hcs2
  | some p =>
    obtain ⟨sep, newSeps⟩ := p
    simp only [hcs]
    rw [splitTextWithRegex_empty]
    rw [goSplits]
    simp

theorem createDocuments_empty_text (cfg : SplitterConfig)
    (seps : List (List Char)) (hne : seps ≠ []) :
    createDocuments cfg seps [[]] = some [] := by
  rw [createDocuments, splitText_empty cfg seps hne]
  simp [createDocuments, createDocsLoop]

/-! Claim theorems. -/

/-- C1: with `chunk_size = 10`, `chunk_overlap = 2`,
`separators = [" ", ""]`, `keep_separator = false` and the remaining
options at their defaults (character-count length), splitting
`"hello world foo bar"` produces exactly
`["hello", "world foo", "bar"]`, in that order. -/
theorem scenarioA_chunks :
    splitText ⟨10, 2, false, false, true⟩ [" ".toList, "".toList]
      "hello world foo bar".toList =
      some ["hello".toList, "world foo".toList, "bar".toList] := by
  rfl

/-- C2 counterexample: splitting `"a b"` on `" "` with
`keep_separator = true` yields `["a", " b"]` — the captured separator is
attached to the fragment following it, not `["a ", "b"]` as the claimed
trailing attachment would give. -/
theorem keepSep_attachment_counterexample :
    splitTextWithRegex "a b".toList " ".toList true =
      ["a".toList, " b".toList] ∧
    splitTextWithRegex "a b".toList " ".toList true ≠
      ["a ".toList, "b".toList] := by
  exact ⟨rfl, by decide⟩

/-- C2 (amended): for every text and non-empty separator pattern, the
keep-separator splitting step attaches each captured separator instance
to the fragment FOLLOWING it (leading attachment): the result is the bare
first fragment followed by `sep ++ fragment` for each later fragment,
with empty pieces dropped (a one-capture-group literal split always
yields an odd piece count, so no dangling-separator case arises). -/
theorem keepSep_leading_attachment (text sep : List Char) (hs : sep ≠ [])
    (f : List Char) (fs : List (List Char))
    (hsplit : splitOnL sep text = f :: fs) :
    splitTextWithRegex text sep true =
      (f :: fs.map (fun x => sep ++ x)).filter (fun s => s ≠ []) :=
  keepSep_structure text sep hs f fs hsplit

theorem keepSep_leading_attachment_witness :
    splitTextWithRegex "a b".toList " ".toList true =
      ("a".toList :: ["b".toList].map (fun x => " ".toList ++ x)).filter
        (fun s => s ≠ []) :=
  keepSep_leading_attachment "a b".toList " ".toList (by decide)
    "a".toList ["b".toList] (by rfl)

/-- C3: for every pair of integers, construction fails (returns no
splitter object) exactly when `chunk_overlap > chunk_size`; in
particular `chunk_overlap = chunk_size` is accepted. -/
theorem construction_fails_iff_overlap_gt_size (cs co : Int)
    (k a s : Bool) :
    (mkTextSplitter cs co k a s).isSome ↔ co ≤ cs := by
  unfold mkTextSplitter
  by_cases h : co > cs
  · rw [if_pos h]
    simp
    omega
  · rw [if_neg h]
    simp
    omega

/-- C4 counterexample: with `keep_separator = true`,
`strip_whitespace = true` (default), `chunk_size = 10`,
`chunk_overlap = 2`, separators `[" ", ""]`, the input `" a"` produces
the chunk sequence `["a"]`, whose concatenation is `"a"` and does not
reproduce the original text `" a"` — a character is lost to stripping,
so chunks do not concatenate back to the original content. -/
theorem chunk_concat_counterexample :
    splitText ⟨10, 2, true, false, true⟩ [" ".toList, "".toList]
      " a".toList = some ["a".toList] ∧
    (["a".toList] : List (List Char)).flatten ≠ " a".toList := by
  exact ⟨rfl, by decide⟩

/-- C4 (amended): exact content reconstruction holds at the
regex-splitting level: for every input text and every separator, with
`keep_separator = true` the produced fragment sequence concatenates back
to the original text exactly, with no character invented or lost; at the
chunk level, whitespace stripping (and overlap retention) can lose or
duplicate characters. -/
theorem regex_split_concat_exact (text sep : List Char) :
    (splitTextWithRegex text sep true).flatten = text :=
  splitTextWithRegex_keep_flatten text sep

/-- C5 counterexample: for the whitespace-only input `" "` (length 1 <
chunk_size 10, `keep_separator = true`, `strip_whitespace = true`)
`split_text` returns no chunk at all rather than exactly one; and with
`keep_separator = false` the input `"a  b"` (length 4 < 10) returns the
single chunk `"a b"`, which differs from the (stripped) input. -/
theorem short_input_counterexample :
    splitText ⟨10, 2, true, false, true⟩ [" ".toList, "".toList]
      " ".toList = some [] ∧
    splitText ⟨10, 2, false, false, true⟩ [" ".toList, "".toList]
      "a  b".toList = some ["a b".toList] ∧
    "a b".toList ≠ "a  b".toList := by
  exact ⟨rfl, rfl, by decide⟩

/-- C5 (amended): with `keep_separator = true` and a non-empty separator
list, every input with `length_function(text) < chunk_size` yields
exactly one chunk equal to the (optionally stripped) input when that
(optionally stripped) text is non-empty, and no chunk at all when it
strips to empty. -/
theorem short_input_single_chunk (cfg : SplitterConfig)
    (seps : List (List Char)) (text : List Char)
    (hkeep : cfg.keepSeparator = true) (hne : seps ≠ [])
    (hlen : lenI text < cfg.chunkSize) :
    splitText cfg seps text =
      some (if (if cfg.stripWhitespace then pyStrip text else text) = []
        then []
        else [if cfg.stripWhitespace then pyStrip text else text]) :=
  splitText_short_keep cfg seps text hkeep hne hlen

theorem short_input_single_chunk_witness :
    splitText ⟨10, 2, true, false, true⟩ [" ".toList, "".toList]
      "hi you".toList = some ["hi you".toList] := by
  have h := short_input_single_chunk ⟨10, 2, true, false, true⟩
    [" ".toList, "".toList] "hi you".toList rfl (by decide) (by decide)
  rw [h]
  rfl

/-- C6 counterexample: with `chunk_size = 3`, `chunk_overlap = 0`,
`keep_separator = false`, `add_start_index = true`, the source text
`"xy a  b"` produces chunks `"xy"` and `"a b"`; the second chunk is not
a substring of the original text (the doubled space was collapsed), so
`find` stores `-1` after `0` and the `start_index` sequence `[0, -1]`
is not monotonically non-decreasing. -/
theorem start_index_counterexample :
    createDocuments ⟨3, 0, false, true, true⟩ [" ".toList, "".toList]
      ["xy a  b".toList] =
      some [⟨"xy".toList, some 0⟩, ⟨"a b".toList, some (-1)⟩] ∧
    ¬ List.Chain' (· ≤ ·)
        (startIndexes [⟨"xy".toList, some 0⟩, ⟨"a b".toList, some (-1)⟩]) := by
  constructor
  · rfl
  · have h01 : startIndexes [⟨"xy".toList, some 0⟩,
        ⟨"a b".toList, some (-1)⟩] = [0, -1] := rfl
    rw [h01, List.chain'_cons]
    intro hch
    exact absurd hch.1 (by omega)

/-- C6 (amended): when `add_start_index` is enabled, the `start_index`
values of the successive Documents of one source text are strictly
increasing — in particular monotonically non-decreasing — provided each
chunk is found in the original text at or after one past the previously
found index (all stored indexes non-negative); a chunk that is not found
stores `-1`, which can break monotonicity. -/
theorem start_index_monotone_when_found (cfg : SplitterConfig)
    (seps : List (List Char)) (text : List Char) (docs : List Document)
    (hadd : cfg.addStartIndex = true)
    (hdocs : createDocuments cfg seps [text] = some docs)
    (hfound : ∀ j ∈ startIndexes docs, 0 ≤ j) :
    List.Chain' (· ≤ ·) (startIndexes docs) := by
  simp only [createDocuments] at hdocs
  cases hsp : splitText cfg seps text with
  | none => rw [hsp] at hdocs; simp at hdocs
  | some chunks =>
    rw [hsp] at hdocs
    simp only [hadd, List.append_nil, Option.some.injEq] at hdocs
    subst hdocs
    have hchain := createDocsLoop_chain text chunks (-1) (by omega) hfound
    cases hL : startIndexes (createDocsLoop true text chunks (-1)) with
    | nil => trivial
    | cons j tl =>
      rw [hL] at hchain
      rw [List.chain_cons] at hchain
      have hlt : List.Chain' (· < ·) (j :: tl) := hchain.2
      exact hlt.imp (fun a b hab => le_of_lt hab)

theorem start_index_monotone_witness :
    List.Chain' (· ≤ ·) (startIndexes [⟨"hello".toList, some 0⟩,
      ⟨"world foo".toList, some 6⟩, ⟨"bar".toList, some 16⟩]) :=
  start_index_monotone_when_found ⟨10, 2, false, true, true⟩
    [" ".toList, "".toList] "hello world foo bar".toList
    [⟨"hello".toList, some 0⟩, ⟨"world foo".toList, some 6⟩,
      ⟨"bar".toList, some 16⟩] rfl (by rfl) (by decide)

/-- C7: for the empty input string, `split_text` returns the empty
fragment sequence, and `create_documents` over a list containing only
the empty string returns an empty Document sequence (for any
configuration and non-empty separator list). -/
theorem empty_input_yields_empty (cfg : SplitterConfig)
    (seps : List (List Char)) (hne : seps ≠ []) :
    splitText cfg seps [] = some [] ∧
    createDocuments cfg seps [[]] = some [] :=
  ⟨splitText_empty cfg seps hne, createDocuments_empty_text cfg seps hne⟩

theorem empty_input_yields_empty_witness :
    splitText ⟨10, 2, true, false, true⟩ [" ".toList, "".toList] [] =
      some [] ∧
    createDocuments ⟨10, 2, true, false, true⟩ [" ".toList, "".toList]
      [[]] = some [] :=
  empty_input_yields_empty ⟨10, 2, true, false, true⟩
    [" ".toList, "".toList] (by decide)

/-- C8: the separator-profile lookup succeeds for exactly the format
tags `"markdown"` and `"html"`; every other tag (for example `"xml"`)
fails with the unsupported-format error, producing no partial output. -/
theorem separator_profile_lookup :
    (∀ format : List Char, (getSeparators format).isSome ↔
      (format = "markdown".toList ∨ format = "html".toList)) ∧
    getSeparators "xml".toList = none := by
  constructor
  · intro format
    unfold getSeparators
    split_ifs with h1 h2 <;> simp_all
  · rfl

/-- C9: for every input text and non-empty separator list (and the
spec's non-negative overlap), the recursive split terminates within a
recursion depth bounded by the separator-list length — any fuel above
that length computes the same result as `split_text` — and the
splitting/merging logic returns a defined result with no exception
path. -/
theorem split_text_depth_bounded_total (cfg : SplitterConfig)
    (text : List Char) (seps : List (List Char)) (fuel : Nat)
    (hne : seps ≠ []) (hov : 0 ≤ cfg.chunkOverlap)
    (hfuel : seps.length < fuel) :
    splitTextFuel cfg fuel text seps = splitText cfg seps text ∧
    (splitText cfg seps text).isSome = true := by
  constructor
  · exact splitTextFuel_stable seps.length cfg text seps fuel
      (seps.length + 1) le_rfl hfuel (by omega)
  · exact splitTextFuel_total (seps.length + 1) cfg text seps hov hne
      (by omega)

theorem split_text_depth_bounded_total_witness :
    splitTextFuel ⟨10, 2, true, false, true⟩ 7 "ab cd".toList
      [" ".toList, "".toList] =
      splitText ⟨10, 2, true, false, true⟩ [" ".toList, "".toList]
        "ab cd".toList ∧
    (splitText ⟨10, 2, true, false, true⟩ [" ".toList, "".toList]
      "ab cd".toList).isSome = true :=
  split_text_depth_bounded_total ⟨10, 2, true, false, true⟩
    "ab cd".toList [" ".toList, "".toList] 7 (by decide) (by decide)
    (by decide)

/-- C10: with `chunk_overlap ≥ 0` and the character-count length
measure, the eviction loop never faults, and on a consistently-measured
buffer it leaves the running total — the measured length of the retained
buffer suffix — at most `chunk_overlap` before the incoming fragment is
appended, so the content carried from one chunk into the next never
exceeds `chunk_overlap` in the length measure. -/
theorem eviction_leaves_total_le_overlap (chunkSize chunkOverlap dLen : Int)
    (sep : List Char) (curDoc : List (List Char)) (total : Int)
    (hov : 0 ≤ chunkOverlap) (htot : total = totalLen (lenI sep) curDoc) :
    evictOk chunkOverlap (lenI sep) curDoc
      (evict chunkSize chunkOverlap (lenI sep) dLen curDoc total) := by
  subst htot
  exact evict_spec chunkSize chunkOverlap (lenI sep) dLen hov curDoc

theorem eviction_leaves_total_le_overlap_witness :
    evictOk 2 (lenI " ".toList) ["world".toList, "foo".toList]
      (evict 10 2 (lenI " ".toList) 3 ["world".toList, "foo".toList] 9) :=
  eviction_leaves_total_le_overlap 10 2 3 " ".toList
    ["world".toList, "foo".toList] 9 (by decide) (by decide)

end Chunker
